import Mathlib

set_option linter.unusedSectionVars false

/-!
Verification of the layered storage composition engine
(`createLayeredStorage`): multi-backend read fallthrough with bubble-up,
write fan-out, deduplicating merge of full scans, snapshot streaming, and
the construction-time event wiring between adjacent layers.

The embedding is a shallow one: each layer is a value of a capability
interface `LayerOps` over an explicit state type, asynchronous methods
become state-passing functions returning `Except`, and `Promise.all`
fan-outs become a `fanout` combinator that applies the operation to every
layer and reports the first error.  The contract semantics of a single
backend (the in-memory `Map`-based storage) is the instance `mapOps`,
whose state is the insertion-ordered list of stored entries.
-/

deriving instance DecidableEq for Except

namespace LayeredStorage

/-- The error kinds of the storage system: `DuplicateKeyError` and
`KeyNotFoundError` from `types.ts` (each naming the offending key), plus
an opaque backend failure surfaced unmodified from a layer. -/
inductive Err (κ : Type) where
  | duplicateKey (key : κ)
  | keyNotFound (key : κ)
  | backend (msg : String)
deriving DecidableEq

/-- Whether an error is a duplicate-key error (the `instanceof
DuplicateKeyError` test used by the bubble-up catch clauses). -/
def Err.isDup {κ : Type} : Err κ → Bool
  | .duplicateKey _ => true
  | _ => false

/-- The capability interface every layer implements (the `Storage`
interface of `types.ts`), as operations on a layer state `σ`.  A failing
operation returns `Except.error` and, by convention of the embedding,
leaves the layer state unchanged at the call site. -/
structure LayerOps (κ T σ : Type) where
  existsb : σ → κ → Bool
  get : σ → κ → Option T
  getAll : σ → List T
  getKeys : σ → List κ
  create : σ → T → Except (Err κ) σ
  update : σ → T → Except (Err κ) σ
  delete : σ → κ → Except (Err κ) σ

section MapLayer

variable {κ T : Type} [DecidableEq κ]

/-- `data.get(key) ?? null` of the in-memory backend: the first stored
entry whose key field equals `key`. -/
def mget (keyOf : T → κ) (s : List T) (k : κ) : Option T :=
  s.find? (fun e => decide (keyOf e = k))

/-- `data.has(key)` of the in-memory backend. -/
def mexists (keyOf : T → κ) (s : List T) (k : κ) : Bool :=
  (mget keyOf s k).isSome

/-- `create` of the in-memory backend: fail with a duplicate-key error if
the key is present, otherwise `data.set` appends the new entry. -/
def mcreate (keyOf : T → κ) (s : List T) (e : T) : Except (Err κ) (List T) :=
  if mexists keyOf s (keyOf e) then .error (.duplicateKey (keyOf e))
  else .ok (s ++ [e])

/-- `update` of the in-memory backend: fail with a not-found error if the
key is absent, otherwise `data.set` replaces the entry in place. -/
def mupdate (keyOf : T → κ) (s : List T) (e : T) : Except (Err κ) (List T) :=
  if mexists keyOf s (keyOf e) then
    .ok (s.map (fun x => if keyOf x = keyOf e then e else x))
  else .error (.keyNotFound (keyOf e))

/-- `delete` of the in-memory backend: fail with a not-found error if the
key is absent, otherwise `data.delete` removes the entry. -/
def mdelete (keyOf : T → κ) (s : List T) (k : κ) : Except (Err κ) (List T) :=
  if mexists keyOf s k then .ok (s.filter (fun x => decide (keyOf x ≠ k)))
  else .error (.keyNotFound k)

/-- The in-memory backend (`createMemoryStorage`) as a `LayerOps`
instance: the contract semantics of a single consistent layer. -/
def mapOps (keyOf : T → κ) : LayerOps κ T (List T) where
  existsb := mexists keyOf
  get := mget keyOf
  getAll := fun s => s
  getKeys := fun s => s.map keyOf
  create := mcreate keyOf
  update := mupdate keyOf
  delete := mdelete keyOf

end MapLayer

section Composite

variable {κ T σ : Type} [DecidableEq κ]

/-- The composite `exists`: query layers top to bottom, true on the first
hit. -/
def compositeExists (L : LayerOps κ T σ) (ss : List σ) (k : κ) : Bool :=
  ss.any (fun s => L.existsb s k)

/-- One bubble-up create into a skipped layer: try `create`, swallow a
duplicate-key failure (the layer was already populated), rethrow anything
else (`createLayeredStorage.get`, and again in `getAll`). -/
def bubbleCreate (L : LayerOps κ T σ) (s : σ) (e : T) : Except (Err κ) σ :=
  match L.create s e with
  | .ok s' => .ok s'
  | .error err => if err.isDup then .ok s else .error err

/-- `Promise.all` over the layer list: the operation runs on every layer
(a rejection does not stop the others), and the join reports the first
error encountered, if any. -/
def fanout (f : σ → Except (Err κ) σ) (ss : List σ) : List σ × Option (Err κ) :=
  (ss.map (fun s => match f s with | .ok s' => s' | .error _ => s),
   ss.findSome? (fun s => match f s with | .ok _ => none | .error err => some err))

/-- The composite `create`: full existence check across all layers first,
duplicate-key error if positive, otherwise create fanned out to every
layer. -/
def compositeCreate (L : LayerOps κ T σ) (keyOf : T → κ) (ss : List σ) (e : T) :
    List σ × Except (Err κ) Unit :=
  if compositeExists L ss (keyOf e) then (ss, .error (.duplicateKey (keyOf e)))
  else
    let p := fanout (fun s => L.create s e) ss
    (p.1, match p.2 with | some err => .error err | none => .ok ())

/-- The loop body of the composite `get`: walk the remaining layers top to
bottom accumulating skipped ones; on a hit, bubble the entry into every
skipped layer and return it; on exhaustion return `none`. -/
def compositeGetLoop (L : LayerOps κ T σ) (k : κ) :
    List σ → List σ → List σ × Except (Err κ) (Option T)
  | skipped, [] => (skipped, .ok none)
  | skipped, s :: rest =>
    match L.get s k with
    | some e =>
      let p := fanout (fun t => bubbleCreate L t e) skipped
      (p.1 ++ s :: rest, match p.2 with | some err => .error err | none => .ok (some e))
    | none => compositeGetLoop L k (skipped ++ [s]) rest

/-- The composite `get` (cache-aside point read). -/
def compositeGet (L : LayerOps κ T σ) (ss : List σ) (k : κ) :
    List σ × Except (Err κ) (Option T) :=
  compositeGetLoop L k [] ss

/-- `Map.set` of the JS merge map: replace in place if the key is already
present (keeping its insertion position), otherwise append. -/
def mapSet (m : List (κ × T)) (k : κ) (v : T) : List (κ × T) :=
  if m.any (fun p => decide (p.1 = k)) then
    m.map (fun p => if p.1 = k then (k, v) else p)
  else m ++ [(k, v)]

/-- Lookup in the merge map. -/
def lookupA (m : List (κ × T)) (k : κ) : Option T :=
  (m.find? (fun p => decide (p.1 = k))).map Prod.snd

/-- Insert all entries of one layer into the merge map (later insertions
overwrite earlier ones). -/
def mergeInto (keyOf : T → κ) (m : List (κ × T)) (entries : List T) : List (κ × T) :=
  entries.foldl (fun acc e => mapSet acc (keyOf e) e) m

/-- The merge of `getAll`: insert each layer, iterating the layer results
in reverse (bottom to top), so the topmost occurrence of a key wins. -/
def mergeLayers (keyOf : T → κ) (layerEntries : List (List T)) : List (κ × T) :=
  layerEntries.reverse.foldl (mergeInto keyOf) []

/-- One step of the per-layer bubble-up fold of `getAll`: try to create
one missing entry, swallowing a duplicate-key failure and remembering the
first other error. -/
def bubbleStep (L : LayerOps κ T σ) (p : σ × Option (Err κ)) (e : T) : σ × Option (Err κ) :=
  match bubbleCreate L p.1 e with
  | .ok s' => (s', p.2)
  | .error err => (p.1, match p.2 with | some e0 => some e0 | none => some err)

/-- The per-layer bubble-up of `getAll`: try to create each entry of the
merged set that the layer's own read did not include. -/
def bubbleMissing (L : LayerOps κ T σ) (keyOf : T → κ) (merged : List T)
    (keys : List κ) (s : σ) : σ × Option (Err κ) :=
  (merged.filter (fun e => decide (keyOf e ∉ keys))).foldl (bubbleStep L) (s, none)

/-- The composite `getAll`: read every layer, merge bottom-up so top
layers win, bubble missing entries up into each layer, and return the
merged set. -/
def compositeGetAll (L : LayerOps κ T σ) (keyOf : T → κ) (ss : List σ) :
    List σ × Except (Err κ) (List T) :=
  let mergedEntries := (mergeLayers keyOf (ss.map L.getAll)).map Prod.snd
  let bubbled := ss.map (fun s =>
    bubbleMissing L keyOf mergedEntries ((L.getAll s).map keyOf) s)
  (bubbled.map Prod.fst,
   match bubbled.findSome? Prod.snd with
   | some err => .error err
   | none => .ok mergedEntries)

/-- `Array.from(new Set(...))`: deduplicate keeping the first occurrence
of each element, in order. -/
def dedupKeepFirst : List κ → List κ
  | [] => []
  | k :: rest => k :: dedupKeepFirst (rest.filter (fun x => decide (x ≠ k)))
termination_by l => l.length
decreasing_by
  simp only [List.length_cons]
  exact Nat.lt_succ_of_le (List.length_filter_le _ _)

/-- The composite `getKeys`: flatten every layer's key listing and
deduplicate. -/
def compositeGetKeys (L : LayerOps κ T σ) (ss : List σ) : List κ :=
  dedupKeepFirst (ss.map L.getKeys).flatten

/-- The body of the composite `streamAll` generator: for each key of the
snapshot perform a composite point read (with its bubble-up) and yield
the entry when found. -/
def streamGo (L : LayerOps κ T σ) : List κ → List σ → List σ × Except (Err κ) (List T)
  | [], ss => (ss, .ok [])
  | k :: ks, ss =>
    match compositeGet L ss k with
    | (ss', .error err) => (ss', .error err)
    | (ss', .ok none) => streamGo L ks ss'
    | (ss', .ok (some e)) =>
      match streamGo L ks ss' with
      | (ss'', .error err) => (ss'', .error err)
      | (ss'', .ok out) => (ss'', .ok (e :: out))

/-- The composite `streamAll`, fully consumed: snapshot the keys, then
stream the entries through composite point reads. -/
def compositeStreamAll (L : LayerOps κ T σ) (ss : List σ) :
    List σ × Except (Err κ) (List T) :=
  streamGo L (compositeGetKeys L ss) ss

/-- The composite `streamAll` consumed only up to `n` yielded entries and
then abandoned (early termination of the generator). -/
def streamTake (L : LayerOps κ T σ) : Nat → List κ → List σ → List σ × Except (Err κ) (List T)
  | 0, _, ss => (ss, .ok [])
  | _ + 1, [], ss => (ss, .ok [])
  | n + 1, k :: ks, ss =>
    match compositeGet L ss k with
    | (ss', .error err) => (ss', .error err)
    | (ss', .ok none) => streamTake L (n + 1) ks ss'
    | (ss', .ok (some e)) =>
      match streamTake L n ks ss' with
      | (ss'', .error err) => (ss'', .error err)
      | (ss'', .ok out) => (ss'', .ok (e :: out))

/-- The composite `update`: composite-level existence check first,
not-found error if negative, otherwise per layer an upsert fan-out:
update where the layer has the key, create where it does not. -/
def compositeUpdate (L : LayerOps κ T σ) (keyOf : T → κ) (ss : List σ) (e : T) :
    List σ × Except (Err κ) Unit :=
  if !(compositeExists L ss (keyOf e)) then (ss, .error (.keyNotFound (keyOf e)))
  else
    let p := fanout (fun s =>
      if L.existsb s (keyOf e) then L.update s e else L.create s e) ss
    (p.1, match p.2 with | some err => .error err | none => .ok ())

/-- The composite `delete`: composite-level existence check first,
not-found error if negative, otherwise delete fanned out to exactly the
layers that have the key. -/
def compositeDelete (L : LayerOps κ T σ) (ss : List σ) (k : κ) :
    List σ × Except (Err κ) Unit :=
  if !(compositeExists L ss k) then (ss, .error (.keyNotFound k))
  else
    let p := fanout (fun s =>
      if L.existsb s k then L.delete s k else .ok s) ss
    (p.1, match p.2 with | some err => .error err | none => .ok ())

/-- The construction-time event wiring, create replay: a create observed
on the lower layer is replayed on the layer above with every failure
suppressed by the trailing catch-all. -/
def replayCreate (L : LayerOps κ T σ) (s : σ) (e : T) : Except (Err κ) σ :=
  match L.create s e with
  | .ok s' => .ok s'
  | .error _ => .ok s

/-- The construction-time event wiring, update replay: replay `update` on
the layer above; on any failure fall back to `create`, and suppress any
failure of that as well. -/
def replayUpdate (L : LayerOps κ T σ) (s : σ) (e : T) : Except (Err κ) σ :=
  match L.update s e with
  | .ok s' => .ok s'
  | .error _ =>
    match L.create s e with
    | .ok s' => .ok s'
    | .error _ => .ok s

/-- The construction-time event wiring, delete replay: replay `delete` on
the layer above with every failure suppressed by the catch-all. -/
def replayDelete (L : LayerOps κ T σ) (keyOf : T → κ) (s : σ) (e : T) : Except (Err κ) σ :=
  match L.delete s (keyOf e) with
  | .ok s' => .ok s'
  | .error _ => .ok s

end Composite

/-- The construction-time validation of `createLayeredStorage`: reject an
empty layer list; collect the distinct key fields; reject more than one,
naming them all in the message; otherwise the shared field is the
composite's key field. -/
def validateLayers (keyFields : List String) : Except String String :=
  match keyFields with
  | [] => .error "At least one storage layer is required"
  | k :: rest =>
    let uniqueKeyFields := dedupKeepFirst (k :: rest)
    if uniqueKeyFields.length > 1 then
      .error ("All layers must have the same key field. Found: " ++
        String.intercalate ", " uniqueKeyFields)
    else .ok (uniqueKeyFields.headD k)

section Derived

variable {κ T : Type} [DecidableEq κ]

/-- The entry held by the topmost layer containing `k` (layer states
listed top first), if any. -/
def lookupTop (keyOf : T → κ) (ss : List (List T)) (k : κ) : Option T :=
  ss.findSome? (fun s => mget keyOf s k)

/-- Internal consistency of a stack of map layers: within each layer,
keys are unique (each backend stores entries in a map keyed by the key
field). -/
def WF (keyOf : T → κ) (ss : List (List T)) : Prop :=
  ∀ s ∈ ss, (s.map keyOf).Nodup

instance (keyOf : T → κ) (ss : List (List T)) : Decidable (WF keyOf ss) := by
  unfold WF; infer_instance

end Derived

/-- A layer whose mutating operations always fail with a backend error:
exercises the non-DuplicateKey error paths of the bubble-up and event
replay code. -/
def failOps : LayerOps Nat Nat Nat where
  existsb := fun _ _ => false
  get := fun _ _ => none
  getAll := fun _ => []
  getKeys := fun _ => []
  create := fun _ _ => .error (.backend "io failure")
  update := fun _ _ => .error (.backend "io failure")
  delete := fun _ _ => .error (.backend "io failure")

/-- Key extraction for the concrete test entity type: entries are
key-value pairs and the key field is the first component. -/
def kF : Nat × Nat → Nat := Prod.fst

/-- A concrete two-layer stack: the top layer holds entry (1, 10); the
bottom layer holds a stale (1, 20) and an entry (2, 30) missing from the
top. -/
def ss0 : List (List (Nat × Nat)) := [[(1, 10)], [(1, 20), (2, 30)]]

section MapLemmas

variable {κ T : Type} [DecidableEq κ]

theorem keyOf_of_mget_some {keyOf : T → κ} {s : List T} {k : κ} {e : T}
    (h : mget keyOf s k = some e) : keyOf e = k := by
  have := List.find?_some h
  simpa using this

theorem mem_of_mget_some {keyOf : T → κ} {s : List T} {k : κ} {e : T}
    (h : mget keyOf s k = some e) : e ∈ s :=
  List.mem_of_find?_eq_some h

theorem mexists_true_iff {keyOf : T → κ} {s : List T} {k : κ} :
    mexists keyOf s k = true ↔ ∃ e ∈ s, keyOf e = k := by
  unfold mexists mget
  rw [List.find?_isSome]
  simp

theorem mexists_false_iff {keyOf : T → κ} {s : List T} {k : κ} :
    mexists keyOf s k = false ↔ mget keyOf s k = none := by
  unfold mexists
  cases h : mget keyOf s k <;> simp [h]

theorem mget_nil {keyOf : T → κ} {k : κ} : mget keyOf ([] : List T) k = none := rfl

theorem mget_cons {keyOf : T → κ} (x : T) (s : List T) (k : κ) :
    mget keyOf (x :: s) k = if keyOf x = k then some x else mget keyOf s k := by
  unfold mget
  by_cases h : keyOf x = k
  · rw [List.find?_cons_of_pos _ (by simpa using h), if_pos h]
  · rw [List.find?_cons_of_neg _ (by simpa using h), if_neg h]

theorem mget_append {keyOf : T → κ} (s t : List T) (k : κ) :
    mget keyOf (s ++ t) k = (mget keyOf s k).or (mget keyOf t k) := by
  unfold mget
  exact List.find?_append

theorem mget_append_single_of_none {keyOf : T → κ} {s : List T} {k : κ} {e : T}
    (h : mget keyOf s k = none) :
    mget keyOf (s ++ [e]) k = if keyOf e = k then some e else none := by
  rw [mget_append, h]
  unfold mget
  by_cases hk : keyOf e = k <;> simp [List.find?, hk]

theorem mget_append_single_of_ne {keyOf : T → κ} (s : List T) {k : κ} {e : T}
    (h : keyOf e ≠ k) : mget keyOf (s ++ [e]) k = mget keyOf s k := by
  rw [mget_append]
  cases hs : mget keyOf s k <;> simp [hs, mget, List.find?, h]

theorem mget_filter_ne {keyOf : T → κ} (s : List T) {k k' : κ} (h : k' ≠ k) :
    mget keyOf (s.filter (fun x => decide (keyOf x ≠ k))) k' = mget keyOf s k' := by
  induction s with
  | nil => rfl
  | cons x s ih =>
    rw [List.filter_cons, mget_cons]
    by_cases hxk : keyOf x ≠ k
    · rw [if_pos (by simpa using hxk), mget_cons, ih]
    · have hx : keyOf x ≠ k' := by
        intro hh
        exact h (hh ▸ (not_not.mp hxk))
      rw [if_neg (by simpa using hxk), if_neg hx, ih]

theorem mget_map_replace {keyOf : T → κ} {s : List T} (e : T)
    (h : mexists keyOf s (keyOf e) = true) :
    mget keyOf (s.map (fun x => if keyOf x = keyOf e then e else x)) (keyOf e) = some e := by
  induction s with
  | nil => simp [mexists, mget, List.find?] at h
  | cons x s ih =>
    rw [List.map_cons, mget_cons]
    by_cases hx : keyOf x = keyOf e
    · rw [if_pos hx]
      simp
    · have h' : mexists keyOf s (keyOf e) = true := by
        rw [mexists_true_iff] at h ⊢
        rcases h with ⟨y, hy, hyk⟩
        rcases List.mem_cons.mp hy with hy0 | hy1
        · exact absurd (hy0 ▸ hyk) hx
        · exact ⟨y, hy1, hyk⟩
      rw [if_neg hx, if_neg hx]
      exact ih h'

theorem mget_map_replace_ne {keyOf : T → κ} (s : List T) (e : T) {k' : κ}
    (h : k' ≠ keyOf e) :
    mget keyOf (s.map (fun x => if keyOf x = keyOf e then e else x)) k' = mget keyOf s k' := by
  induction s with
  | nil => rfl
  | cons x s ih =>
    rw [List.map_cons, mget_cons, mget_cons]
    by_cases hx : keyOf x = keyOf e
    · have hxk : keyOf x ≠ k' := by rw [hx]; exact fun hh => h hh.symm
      have hek : keyOf e ≠ k' := fun hh => h hh.symm
      rw [if_pos hx, if_neg hek, if_neg hxk, ih]
    · rw [if_neg hx, ih]

end MapLemmas

section BubbleLemmas

variable {κ T σ : Type} [DecidableEq κ]

theorem bubbleCreate_of_ok {L : LayerOps κ T σ} {s s' : σ} {e : T}
    (h : L.create s e = .ok s') : bubbleCreate L s e = .ok s' := by
  unfold bubbleCreate
  rw [h]

theorem bubbleCreate_of_error {L : LayerOps κ T σ} {s : σ} {e : T} {err : Err κ}
    (h : L.create s e = .error err) :
    bubbleCreate L s e = if err.isDup then .ok s else .error err := by
  unfold bubbleCreate
  rw [h]

theorem bubbleCreate_map {keyOf : T → κ} (s : List T) (e : T) :
    bubbleCreate (mapOps keyOf) s e =
      .ok (if mexists keyOf s (keyOf e) then s else s ++ [e]) := by
  by_cases h : mexists keyOf s (keyOf e)
  · have hcr : (mapOps keyOf).create s e = .error (.duplicateKey (keyOf e)) := by
      simp [mapOps, mcreate, h]
    rw [bubbleCreate_of_error hcr]
    simp [Err.isDup, h]
  · have hcr : (mapOps keyOf).create s e = .ok (s ++ [e]) := by
      simp [mapOps, mcreate, h]
    rw [bubbleCreate_of_ok hcr]
    simp [h]

theorem fanout_of_ok {f : σ → Except (Err κ) σ} {g : σ → σ} {ss : List σ}
    (h : ∀ s ∈ ss, f s = .ok (g s)) : fanout f ss = (ss.map g, none) := by
  unfold fanout
  rw [Prod.mk.injEq]
  refine ⟨List.map_congr_left (fun s hs => by rw [h s hs]), ?_⟩
  rw [List.findSome?_eq_none_iff]
  intro s hs
  rw [h s hs]

end BubbleLemmas

section LookupTopLemmas

variable {κ T : Type} [DecidableEq κ]

theorem lookupTop_nil {keyOf : T → κ} {k : κ} : lookupTop keyOf [] k = none := rfl

theorem lookupTop_cons_some {keyOf : T → κ} {s : List T} {ss : List (List T)} {k : κ} {e : T}
    (h : mget keyOf s k = some e) : lookupTop keyOf (s :: ss) k = some e := by
  simp [lookupTop, List.findSome?_cons, h]

theorem lookupTop_cons_none {keyOf : T → κ} {s : List T} {ss : List (List T)} {k : κ}
    (h : mget keyOf s k = none) : lookupTop keyOf (s :: ss) k = lookupTop keyOf ss k := by
  simp [lookupTop, List.findSome?_cons, h]

theorem lookupTop_append {keyOf : T → κ} (xs ys : List (List T)) (k : κ) :
    lookupTop keyOf (xs ++ ys) k = (lookupTop keyOf xs k).or (lookupTop keyOf ys k) := by
  unfold lookupTop
  exact List.findSome?_append

theorem lookupTop_eq_none_iff {keyOf : T → κ} {ss : List (List T)} {k : κ} :
    lookupTop keyOf ss k = none ↔ ∀ s ∈ ss, mget keyOf s k = none := by
  unfold lookupTop
  exact List.findSome?_eq_none_iff

theorem lookupTop_congr {keyOf : T → κ} {ss ts : List (List T)} {k : κ}
    (hlen : ss.length = ts.length)
    (h : ∀ i (hi : i < ss.length) (hi2 : i < ts.length),
      mget keyOf (ss.get ⟨i, hi⟩) k = mget keyOf (ts.get ⟨i, hi2⟩) k) :
    lookupTop keyOf ss k = lookupTop keyOf ts k := by
  induction ss generalizing ts with
  | nil =>
    cases ts with
    | nil => rfl
    | cons t ts => exact absurd hlen (by simp)
  | cons s ss ih =>
    cases ts with
    | nil => exact absurd hlen (by simp)
    | cons t ts =>
      have h0 : mget keyOf s k = mget keyOf t k := h 0 (by simp) (by simp)
      cases hs : mget keyOf s k with
      | some e =>
        rw [lookupTop_cons_some hs, lookupTop_cons_some (h0 ▸ hs)]
      | none =>
        rw [lookupTop_cons_none hs, lookupTop_cons_none (h0 ▸ hs)]
        exact ih (by simpa using hlen)
          (fun i hi hi2 => h (i + 1) (by simpa using Nat.succ_lt_succ hi)
            (by simpa using Nat.succ_lt_succ hi2))

end LookupTopLemmas

section GetLoopLemmas

variable {κ T σ : Type} [DecidableEq κ]

theorem compositeGetLoop_all_none {L : LayerOps κ T σ} {k : κ} {remaining : List σ}
    (h : ∀ s ∈ remaining, L.get s k = none) :
    ∀ skipped, compositeGetLoop L k skipped remaining = (skipped ++ remaining, .ok none) := by
  induction remaining with
  | nil => intro skipped; simp [compositeGetLoop]
  | cons s rest ih =>
    intro skipped
    have hs : L.get s k = none := h s (List.mem_cons_self s rest)
    simp only [compositeGetLoop, hs]
    rw [ih (fun t ht => h t (List.mem_cons_of_mem s ht)) (skipped ++ [s])]
    simp

theorem compositeGetLoop_found {L : LayerOps κ T σ} {k : κ} {e : T} :
    ∀ (remaining : List σ) (i : Nat) (hi : i < remaining.length),
      (∀ j (hj : j < remaining.length), j < i → L.get (remaining.get ⟨j, hj⟩) k = none) →
      L.get (remaining.get ⟨i, hi⟩) k = some e →
      ∀ skipped, compositeGetLoop L k skipped remaining =
        ((fanout (fun t => bubbleCreate L t e) (skipped ++ remaining.take i)).1 ++
            remaining.drop i,
         match (fanout (fun t => bubbleCreate L t e) (skipped ++ remaining.take i)).2 with
         | some err => .error err
         | none => .ok (some e)) := by
  intro remaining
  induction remaining with
  | nil => intro i hi; exact absurd hi (Nat.not_lt_zero i)
  | cons s rest ih =>
    intro i hi hskip hfound skipped
    cases i with
    | zero =>
      have hs : L.get s k = some e := hfound
      simp only [compositeGetLoop, hs, List.take_zero, List.drop_zero, List.append_nil]
    | succ i =>
      have hs : L.get s k = none := hskip 0 (by simp) (Nat.succ_pos i)
      simp only [compositeGetLoop, hs]
      have hi' : i < rest.length := by simpa using hi
      have hskip' : ∀ j (hj : j < rest.length), j < i → L.get (rest.get ⟨j, hj⟩) k = none :=
        fun j hj hji =>
          hskip (j + 1) (by simpa using Nat.succ_lt_succ hj) (Nat.succ_lt_succ hji)
      have hfound' : L.get (rest.get ⟨i, hi'⟩) k = some e := hfound
      rw [ih i hi' hskip' hfound' (skipped ++ [s])]
      simp [List.append_assoc]

theorem compositeGet_all_none {L : LayerOps κ T σ} {k : κ} {ss : List σ}
    (h : ∀ s ∈ ss, L.get s k = none) : compositeGet L ss k = (ss, .ok none) := by
  unfold compositeGet
  rw [compositeGetLoop_all_none h []]
  simp

theorem compositeGet_found {L : LayerOps κ T σ} {k : κ} {e : T} {ss : List σ}
    {i : Nat} (hi : i < ss.length)
    (hskip : ∀ j (hj : j < ss.length), j < i → L.get (ss.get ⟨j, hj⟩) k = none)
    (hfound : L.get (ss.get ⟨i, hi⟩) k = some e) :
    compositeGet L ss k =
      ((fanout (fun t => bubbleCreate L t e) (ss.take i)).1 ++ ss.drop i,
       match (fanout (fun t => bubbleCreate L t e) (ss.take i)).2 with
       | some err => .error err
       | none => .ok (some e)) := by
  unfold compositeGet
  rw [compositeGetLoop_found ss i hi hskip hfound []]
  simp

end GetLoopLemmas

section GetMapLemmas

variable {κ T : Type} [DecidableEq κ]

@[simp] theorem mapOps_existsb {keyOf : T → κ} : (mapOps keyOf).existsb = mexists keyOf := rfl

@[simp] theorem mapOps_get {keyOf : T → κ} : (mapOps keyOf).get = mget keyOf := rfl

@[simp] theorem mapOps_getAll {keyOf : T → κ} : (mapOps keyOf).getAll = fun s => s := rfl

@[simp] theorem mapOps_getKeys {keyOf : T → κ} :
    (mapOps keyOf).getKeys = fun s => s.map keyOf := rfl

@[simp] theorem mapOps_create {keyOf : T → κ} : (mapOps keyOf).create = mcreate keyOf := rfl

@[simp] theorem mapOps_update {keyOf : T → κ} : (mapOps keyOf).update = mupdate keyOf := rfl

@[simp] theorem mapOps_delete {keyOf : T → κ} : (mapOps keyOf).delete = mdelete keyOf := rfl

theorem fanout_bubble_map_of_absent {keyOf : T → κ} {k : κ} {e : T} (hk : keyOf e = k)
    {skipped : List (List T)} (h : ∀ t ∈ skipped, mget keyOf t k = none) :
    fanout (fun t => bubbleCreate (mapOps keyOf) t e) skipped =
      (skipped.map (fun t => t ++ [e]), none) := by
  apply fanout_of_ok
  intro t ht
  have hex : mexists keyOf t (keyOf e) = false := by
    rw [hk]
    exact mexists_false_iff.mpr (h t ht)
  rw [bubbleCreate_map, hex]
  simp

theorem getMap_loop_spec {keyOf : T → κ} {k : κ} :
    ∀ (remaining skipped : List (List T)),
      (∀ t ∈ skipped, mget keyOf t k = none) →
      ∃ ss', compositeGetLoop (mapOps keyOf) k skipped remaining =
          (ss', .ok (lookupTop keyOf remaining k)) ∧
        ss'.length = skipped.length + remaining.length ∧
        ∀ k', lookupTop keyOf ss' k' = lookupTop keyOf (skipped ++ remaining) k' := by
  intro remaining
  induction remaining with
  | nil =>
    intro skipped h
    exact ⟨skipped, by simp [compositeGetLoop, lookupTop_nil], by simp, fun k' => by simp⟩
  | cons s rest ih =>
    intro skipped h
    cases hs : mget keyOf s k with
    | none =>
      have h' : ∀ t ∈ skipped ++ [s], mget keyOf t k = none := by
        intro t ht
        rcases List.mem_append.mp ht with h1 | h2
        · exact h t h1
        · rw [List.mem_singleton.mp h2]
          exact hs
      rcases ih (skipped ++ [s]) h' with ⟨ss', h1, h2, h3⟩
      refine ⟨ss', ?_, ?_, ?_⟩
      · simp only [compositeGetLoop, mapOps_get, hs]
        rw [lookupTop_cons_none hs]
        exact h1
      · simp only [List.length_append, List.length_cons, List.length_nil] at h2 ⊢
        omega
      · intro k'
        rw [h3 k', List.append_assoc, List.singleton_append]
    | some e =>
      have hk : keyOf e = k := keyOf_of_mget_some hs
      have hfan := fanout_bubble_map_of_absent hk h
      refine ⟨skipped.map (fun t => t ++ [e]) ++ s :: rest, ?_, by simp, ?_⟩
      · simp only [compositeGetLoop, mapOps_get, hs, hfan]
        rw [lookupTop_cons_some hs]
      · intro k'
        by_cases hkk : k' = k
        · subst hkk
          rw [lookupTop_append, lookupTop_append,
            lookupTop_eq_none_iff.mpr h, lookupTop_cons_some hs]
          cases skipped with
          | nil => rfl
          | cons t ts =>
            have ht : mget keyOf (t ++ [e]) k' = some e := by
              rw [mget_append_single_of_none (h t (List.mem_cons_self t ts)), if_pos hk]
            rw [List.map_cons, lookupTop_cons_some ht]
            rfl
        · rw [lookupTop_append, lookupTop_append]
          have hmm : lookupTop keyOf (skipped.map (fun t => t ++ [e])) k' =
              lookupTop keyOf skipped k' := by
            apply lookupTop_congr (by simp)
            intro i hi hi2
            rw [List.get_map]
            exact mget_append_single_of_ne _ (by rw [hk]; exact fun hh => hkk hh.symm)
          rw [hmm]

theorem compositeGet_map_spec {keyOf : T → κ} (ss : List (List T)) (k : κ) :
    ∃ ss', compositeGet (mapOps keyOf) ss k = (ss', .ok (lookupTop keyOf ss k)) ∧
      ss'.length = ss.length ∧
      ∀ k', lookupTop keyOf ss' k' = lookupTop keyOf ss k' := by
  rcases @getMap_loop_spec κ T _ keyOf k ss [] (by simp) with ⟨ss', h1, h2, h3⟩
  exact ⟨ss', h1, by simpa using h2, fun k' => by simpa using h3 k'⟩

end GetMapLemmas

section MergeLemmas

variable {κ T : Type} [DecidableEq κ]

theorem lookupA_nil {k : κ} : lookupA ([] : List (κ × T)) k = none := rfl

theorem lookupA_cons (p : κ × T) (m : List (κ × T)) (k : κ) :
    lookupA (p :: m) k = if p.1 = k then some p.2 else lookupA m k := by
  unfold lookupA
  by_cases h : p.1 = k
  · rw [List.find?_cons_of_pos _ (by simpa using h), if_pos h]
    rfl
  · rw [List.find?_cons_of_neg _ (by simpa using h), if_neg h]

theorem lookupA_append (m m' : List (κ × T)) (k : κ) :
    lookupA (m ++ m') k = (lookupA m k).or (lookupA m' k) := by
  unfold lookupA
  rw [List.find?_append]
  cases List.find? (fun p => decide (p.1 = k)) m <;> rfl

theorem lookupA_eq_none_of_not_mem {m : List (κ × T)} {k : κ}
    (h : k ∉ m.map Prod.fst) : lookupA m k = none := by
  induction m with
  | nil => rfl
  | cons p m ih =>
    rw [lookupA_cons, if_neg (fun hh => h (by simp [hh]))]
    exact ih (fun hh => h (by simp [hh]))

theorem lookupA_map_replace {m : List (κ × T)} {k : κ} (v : T)
    (hmem : m.any (fun p => decide (p.1 = k)) = true) :
    lookupA (m.map (fun p => if p.1 = k then (k, v) else p)) k = some v := by
  induction m with
  | nil => simp at hmem
  | cons p m ih =>
    rw [List.map_cons]
    by_cases hp : p.1 = k
    · rw [if_pos hp, lookupA_cons, if_pos rfl]
    · rw [if_neg hp, lookupA_cons, if_neg hp]
      exact ih (by simpa [hp] using hmem)

theorem lookupA_map_replace_ne (m : List (κ × T)) {k : κ} (v : T) {k' : κ} (h : k' ≠ k) :
    lookupA (m.map (fun p => if p.1 = k then (k, v) else p)) k' = lookupA m k' := by
  induction m with
  | nil => rfl
  | cons p m ih =>
    rw [List.map_cons]
    by_cases hp : p.1 = k
    · rw [if_pos hp, lookupA_cons, lookupA_cons,
        if_neg (by simp; exact fun hh => h hh.symm),
        if_neg (by rw [hp]; exact fun hh => h hh.symm)]
      exact ih
    · rw [if_neg hp, lookupA_cons, lookupA_cons]
      by_cases hpk : p.1 = k'
      · rw [if_pos hpk, if_pos hpk]
      · rw [if_neg hpk, if_neg hpk]
        exact ih

theorem lookupA_mapSet (m : List (κ × T)) (k : κ) (v : T) (k' : κ) :
    lookupA (mapSet m k v) k' = if k' = k then some v else lookupA m k' := by
  unfold mapSet
  by_cases hmem : m.any (fun p => decide (p.1 = k)) = true
  · rw [if_pos hmem]
    by_cases hk : k' = k
    · rw [if_pos hk, hk]
      exact lookupA_map_replace v hmem
    · rw [if_neg hk]
      exact lookupA_map_replace_ne m v hk
  · rw [if_neg hmem, lookupA_append]
    have hnone : k ∉ m.map Prod.fst := by
      intro hmm
      rcases List.mem_map.mp hmm with ⟨p, hp, hpk⟩
      exact hmem (List.any_eq_true.mpr ⟨p, hp, by simpa using hpk⟩)
    by_cases hk : k' = k
    · rw [if_pos hk, hk, lookupA_eq_none_of_not_mem hnone, lookupA_cons, if_pos rfl]
      rfl
    · rw [if_neg hk, lookupA_cons, if_neg (fun hh => hk hh.symm), lookupA_nil]
      cases lookupA m k' <;> rfl

theorem keys_map_replace (m : List (κ × T)) (k : κ) (v : T) :
    (m.map (fun p => if p.1 = k then (k, v) else p)).map Prod.fst = m.map Prod.fst := by
  rw [List.map_map]
  apply List.map_congr_left
  intro p _
  by_cases hp : p.1 = k <;> simp [hp]

theorem keys_mapSet_mem (m : List (κ × T)) (k : κ) (v : T) (k' : κ) :
    k' ∈ (mapSet m k v).map Prod.fst ↔ k' ∈ m.map Prod.fst ∨ k' = k := by
  unfold mapSet
  by_cases hmem : m.any (fun p => decide (p.1 = k)) = true
  · rw [if_pos hmem, keys_map_replace]
    constructor
    · exact Or.inl
    · rintro (h | h)
      · exact h
      · rcases List.any_eq_true.mp hmem with ⟨p, hp, hpk⟩
        rw [h]
        exact List.mem_map.mpr ⟨p, hp, by simpa using hpk⟩
  · rw [if_neg hmem]
    simp

theorem keys_mapSet_nodup {m : List (κ × T)} (k : κ) (v : T)
    (h : (m.map Prod.fst).Nodup) : ((mapSet m k v).map Prod.fst).Nodup := by
  unfold mapSet
  by_cases hmem : m.any (fun p => decide (p.1 = k)) = true
  · rw [if_pos hmem, keys_map_replace]
    exact h
  · rw [if_neg hmem]
    have hnone : k ∉ m.map Prod.fst := by
      intro hmm
      rcases List.mem_map.mp hmm with ⟨p, hp, hpk⟩
      exact hmem (List.any_eq_true.mpr ⟨p, hp, by simpa using hpk⟩)
    rw [List.map_append]
    refine List.Nodup.append h (List.nodup_singleton k) ?_
    intro a ha hb
    rw [List.mem_singleton.mp hb] at ha
    exact hnone ha

theorem pairs_mapSet {keyOf : T → κ} {m : List (κ × T)} {k : κ} {v : T}
    (h : ∀ p ∈ m, keyOf p.2 = p.1) (hv : keyOf v = k) :
    ∀ p ∈ mapSet m k v, keyOf p.2 = p.1 := by
  unfold mapSet
  by_cases hmem : m.any (fun p => decide (p.1 = k)) = true
  · rw [if_pos hmem]
    intro p hp
    rcases List.mem_map.mp hp with ⟨q, hq, hqe⟩
    by_cases hqk : q.1 = k
    · rw [if_pos hqk] at hqe
      rw [← hqe]
      exact hv
    · rw [if_neg hqk] at hqe
      rw [← hqe]
      exact h q hq
  · rw [if_neg hmem]
    intro p hp
    rcases List.mem_append.mp hp with h1 | h2
    · exact h p h1
    · rw [List.mem_singleton.mp h2]
      exact hv

end MergeLemmas

section MergeFoldLemmas

variable {κ T : Type} [DecidableEq κ]

theorem mergeInto_nil {keyOf : T → κ} (m : List (κ × T)) : mergeInto keyOf m [] = m := rfl

theorem mergeInto_cons {keyOf : T → κ} (m : List (κ × T)) (e : T) (es : List T) :
    mergeInto keyOf m (e :: es) = mergeInto keyOf (mapSet m (keyOf e) e) es := rfl

theorem mget_none_of_not_mem_keys {keyOf : T → κ} {es : List T} {k : κ}
    (h : k ∉ es.map keyOf) : mget keyOf es k = none := by
  cases hg : mget keyOf es k with
  | none => rfl
  | some y =>
    exact absurd (List.mem_map.mpr ⟨y, mem_of_mget_some hg, keyOf_of_mget_some hg⟩) h

theorem lookupA_mergeInto {keyOf : T → κ} :
    ∀ (es : List T), (es.map keyOf).Nodup → ∀ (m : List (κ × T)) (k : κ),
      lookupA (mergeInto keyOf m es) k =
        match mget keyOf es k with
        | some e => some e
        | none => lookupA m k := by
  intro es
  induction es with
  | nil => intro _ m k; rw [mergeInto_nil, mget_nil]
  | cons e es ih =>
    intro hnd m k
    have hnd' : (es.map keyOf).Nodup := (List.nodup_cons.mp (by simpa using hnd)).2
    have hnm : keyOf e ∉ es.map keyOf := (List.nodup_cons.mp (by simpa using hnd)).1
    rw [mergeInto_cons, ih hnd', mget_cons]
    by_cases hk : keyOf e = k
    · rw [if_pos hk, ← hk, mget_none_of_not_mem_keys hnm, lookupA_mapSet, if_pos rfl]
    · rw [if_neg hk]
      cases hg : mget keyOf es k with
      | some y => rfl
      | none =>
        rw [lookupA_mapSet, if_neg (fun hh => hk hh.symm)]

theorem keys_mergeInto_mem {keyOf : T → κ} :
    ∀ (es : List T) (m : List (κ × T)) (k : κ),
      k ∈ (mergeInto keyOf m es).map Prod.fst ↔
        k ∈ m.map Prod.fst ∨ k ∈ es.map keyOf := by
  intro es
  induction es with
  | nil => intro m k; simp [mergeInto_nil]
  | cons e es ih =>
    intro m k
    rw [mergeInto_cons, ih, keys_mapSet_mem]
    simp only [List.map_cons, List.mem_cons]
    constructor
    · rintro ((h | h) | h)
      · exact Or.inl h
      · exact Or.inr (Or.inl h)
      · exact Or.inr (Or.inr h)
    · rintro (h | h | h)
      · exact Or.inl (Or.inl h)
      · exact Or.inl (Or.inr h)
      · exact Or.inr h

theorem keys_mergeInto_nodup {keyOf : T → κ} :
    ∀ (es : List T) {m : List (κ × T)}, (m.map Prod.fst).Nodup →
      ((mergeInto keyOf m es).map Prod.fst).Nodup := by
  intro es
  induction es with
  | nil => intro m h; exact h
  | cons e es ih =>
    intro m h
    rw [mergeInto_cons]
    exact ih (keys_mapSet_nodup _ _ h)

theorem pairs_mergeInto {keyOf : T → κ} :
    ∀ (es : List T) {m : List (κ × T)}, (∀ p ∈ m, keyOf p.2 = p.1) →
      ∀ p ∈ mergeInto keyOf m es, keyOf p.2 = p.1 := by
  intro es
  induction es with
  | nil => intro m h; exact h
  | cons e es ih =>
    intro m h
    rw [mergeInto_cons]
    exact ih (pairs_mapSet h rfl)

theorem lookupTop_singleton {keyOf : T → κ} (s : List T) (k : κ) :
    lookupTop keyOf [s] k = mget keyOf s k := by
  cases h : mget keyOf s k with
  | some e => exact lookupTop_cons_some h
  | none => rw [lookupTop_cons_none h, lookupTop_nil]

theorem lookupA_mergeFold {keyOf : T → κ} :
    ∀ (ls : List (List T)), (∀ l ∈ ls, (l.map keyOf).Nodup) →
      ∀ (m : List (κ × T)) (k : κ),
        lookupA (ls.foldl (mergeInto keyOf) m) k =
          match lookupTop keyOf ls.reverse k with
          | some e => some e
          | none => lookupA m k := by
  intro ls
  induction ls with
  | nil => intro _ m k; rw [List.foldl_nil, List.reverse_nil, lookupTop_nil]
  | cons l ls ih =>
    intro h m k
    rw [List.foldl_cons, List.reverse_cons, lookupTop_append, lookupTop_singleton,
      ih (fun x hx => h x (List.mem_cons_of_mem l hx)) (mergeInto keyOf m l) k]
    cases ht : lookupTop keyOf ls.reverse k with
    | some e => rfl
    | none =>
      rw [lookupA_mergeInto l (h l (List.mem_cons_self l ls)) m k]
      cases hg : mget keyOf l k <;> rfl

theorem keys_mergeFold_mem {keyOf : T → κ} :
    ∀ (ls : List (List T)) (m : List (κ × T)) (k : κ),
      k ∈ (ls.foldl (mergeInto keyOf) m).map Prod.fst ↔
        k ∈ m.map Prod.fst ∨ ∃ l ∈ ls, k ∈ l.map keyOf := by
  intro ls
  induction ls with
  | nil => intro m k; simp
  | cons l ls ih =>
    intro m k
    rw [List.foldl_cons, ih, keys_mergeInto_mem]
    simp only [List.mem_cons]
    constructor
    · rintro ((h | h) | ⟨x, hx, hk⟩)
      · exact Or.inl h
      · exact Or.inr ⟨l, Or.inl rfl, h⟩
      · exact Or.inr ⟨x, Or.inr hx, hk⟩
    · rintro (h | ⟨x, hx | hx, hk⟩)
      · exact Or.inl (Or.inl h)
      · exact Or.inl (Or.inr (hx ▸ hk))
      · exact Or.inr ⟨x, hx, hk⟩

theorem keys_mergeFold_nodup {keyOf : T → κ} :
    ∀ (ls : List (List T)) {m : List (κ × T)}, (m.map Prod.fst).Nodup →
      ((ls.foldl (mergeInto keyOf) m).map Prod.fst).Nodup := by
  intro ls
  induction ls with
  | nil => intro m h; exact h
  | cons l ls ih =>
    intro m h
    rw [List.foldl_cons]
    exact ih (keys_mergeInto_nodup l h)

theorem pairs_mergeFold {keyOf : T → κ} :
    ∀ (ls : List (List T)) {m : List (κ × T)}, (∀ p ∈ m, keyOf p.2 = p.1) →
      ∀ p ∈ ls.foldl (mergeInto keyOf) m, keyOf p.2 = p.1 := by
  intro ls
  induction ls with
  | nil => intro m h; exact h
  | cons l ls ih =>
    intro m h
    rw [List.foldl_cons]
    exact ih (pairs_mergeInto l h)

theorem lookupA_mergeLayers {keyOf : T → κ} {ss : List (List T)}
    (hWF : ∀ s ∈ ss, (s.map keyOf).Nodup) (k : κ) :
    lookupA (mergeLayers keyOf ss) k = lookupTop keyOf ss k := by
  unfold mergeLayers
  rw [lookupA_mergeFold ss.reverse (fun l hl => hWF l (List.mem_reverse.mp hl)) [] k,
    List.reverse_reverse]
  cases lookupTop keyOf ss k <;> rfl

theorem keys_mergeLayers_mem {keyOf : T → κ} (ss : List (List T)) (k : κ) :
    k ∈ (mergeLayers keyOf ss).map Prod.fst ↔ ∃ s ∈ ss, k ∈ s.map keyOf := by
  unfold mergeLayers
  rw [keys_mergeFold_mem]
  simp

theorem keys_mergeLayers_nodup {keyOf : T → κ} (ss : List (List T)) :
    ((mergeLayers keyOf ss).map Prod.fst).Nodup := by
  unfold mergeLayers
  exact keys_mergeFold_nodup ss.reverse (by simp)

theorem pairs_mergeLayers {keyOf : T → κ} (ss : List (List T)) :
    ∀ p ∈ mergeLayers keyOf ss, keyOf p.2 = p.1 := by
  unfold mergeLayers
  exact pairs_mergeFold ss.reverse (by simp)

theorem lookupA_self_of_nodup :
    ∀ (m : List (κ × T)), (m.map Prod.fst).Nodup →
      ∀ p ∈ m, lookupA m p.1 = some p.2 := by
  intro m
  induction m with
  | nil => intro _ p hp; simp at hp
  | cons q m ih =>
    intro h p hp
    rw [List.map_cons] at h
    have hnd := List.nodup_cons.mp h
    rcases List.mem_cons.mp hp with h1 | h2
    · rw [h1, lookupA_cons, if_pos rfl]
    · have hq : q.1 ≠ p.1 := fun hh => hnd.1 (hh ▸ List.mem_map.mpr ⟨p, h2, rfl⟩)
      rw [lookupA_cons, if_neg hq]
      exact ih hnd.2 p h2

theorem filterMap_keys_eq {m : List (κ × T)} {f : κ → Option T}
    (h : ∀ p ∈ m, f p.1 = some p.2) :
    (m.map Prod.fst).filterMap f = m.map Prod.snd := by
  induction m with
  | nil => rfl
  | cons p m ih =>
    rw [List.map_cons, List.map_cons, List.filterMap_cons,
      h p (List.mem_cons_self p m)]
    rw [ih (fun q hq => h q (List.mem_cons_of_mem p hq))]

end MergeFoldLemmas

section GetAllMapLemmas

variable {κ T : Type} [DecidableEq κ]

theorem bubbleStep_map {keyOf : T → κ} (p : List T × Option (Err κ)) (e : T) :
    bubbleStep (mapOps keyOf) p e =
      (if mexists keyOf p.1 (keyOf e) then p.1 else p.1 ++ [e], p.2) := by
  unfold bubbleStep
  rw [bubbleCreate_map]

theorem foldl_bubble_map_spec {keyOf : T → κ} {keys : List κ} :
    ∀ (es : List T), (∀ e ∈ es, keyOf e ∉ keys) → ∀ (s : List T),
      ∃ s', es.foldl (bubbleStep (mapOps keyOf)) (s, (none : Option (Err κ))) = (s', none) ∧
        ∀ (k : κ) (v : T), mget keyOf s k = some v → k ∈ keys → mget keyOf s' k = some v := by
  intro es
  induction es with
  | nil => exact fun _ s => ⟨s, rfl, fun _ _ hv _ => hv⟩
  | cons e es ih =>
    intro h s
    have he : keyOf e ∉ keys := h e (List.mem_cons_self e es)
    rcases ih (fun x hx => h x (List.mem_cons_of_mem e hx))
        (if mexists keyOf s (keyOf e) then s else s ++ [e]) with ⟨s', h1, h2⟩
    refine ⟨s', ?_, ?_⟩
    · rw [List.foldl_cons, bubbleStep_map]
      exact h1
    · intro k v hv hk
      apply h2 k v ?_ hk
      have hne : keyOf e ≠ k := fun hh => he (hh ▸ hk)
      by_cases hex : mexists keyOf s (keyOf e)
      · rw [if_pos hex]
        exact hv
      · rw [if_neg hex, mget_append_single_of_ne s hne]
        exact hv

theorem bubbleMissing_map_spec {keyOf : T → κ} (merged : List T) (keys : List κ) (s : List T) :
    ∃ s', bubbleMissing (mapOps keyOf) keyOf merged keys s = (s', none) ∧
      ∀ (k : κ) (v : T), mget keyOf s k = some v → k ∈ keys → mget keyOf s' k = some v := by
  unfold bubbleMissing
  exact foldl_bubble_map_spec (merged.filter (fun e => decide (keyOf e ∉ keys)))
    (fun x hx => by simpa using (List.mem_filter.mp hx).2) s

theorem compositeGetAll_map_spec {keyOf : T → κ} (ss : List (List T)) :
    (compositeGetAll (mapOps keyOf) keyOf ss).2 =
      .ok ((mergeLayers keyOf ss).map Prod.snd) ∧
    (compositeGetAll (mapOps keyOf) keyOf ss).1.length = ss.length ∧
    ∀ j (hj : j < ss.length) (hj2 : j < (compositeGetAll (mapOps keyOf) keyOf ss).1.length)
      (k : κ) (v : T), mget keyOf (ss.get ⟨j, hj⟩) k = some v →
      mget keyOf ((compositeGetAll (mapOps keyOf) keyOf ss).1.get ⟨j, hj2⟩) k = some v := by
  have hmap : ss.map (fun s => s) = ss := List.map_id' ss
  unfold compositeGetAll
  simp only [mapOps_getAll, hmap]
  have hbub : ∀ s ∈ ss, (bubbleMissing (mapOps keyOf) keyOf
      ((mergeLayers keyOf ss).map Prod.snd) (s.map keyOf) s).2 = none := by
    intro s _
    rcases bubbleMissing_map_spec ((mergeLayers keyOf ss).map Prod.snd) (s.map keyOf) s with
      ⟨s', h1, _⟩
    rw [h1]
  refine ⟨?_, ?_, ?_⟩
  · have : (ss.map (fun s => bubbleMissing (mapOps keyOf) keyOf
        ((mergeLayers keyOf ss).map Prod.snd) (s.map keyOf) s)).findSome? Prod.snd = none := by
      rw [List.findSome?_eq_none_iff]
      intro p hp
      rcases List.mem_map.mp hp with ⟨s, hs, hps⟩
      rw [← hps]
      exact hbub s hs
    rw [this]
  · simp
  · intro j hj hj2 k v hv
    simp only [List.get_eq_getElem] at hv ⊢
    simp only [List.map_map, List.getElem_map, Function.comp, hmap]
    rcases @bubbleMissing_map_spec κ T _ keyOf ((mergeLayers keyOf ss).map Prod.snd)
        ((ss[j]).map keyOf) (ss[j]) with ⟨s', h1, h2⟩
    have hkmem : k ∈ (ss[j]).map keyOf :=
      List.mem_map.mpr ⟨v, mem_of_mget_some hv, keyOf_of_mget_some hv⟩
    rw [h1]
    exact h2 k v hv hkmem

end GetAllMapLemmas

section DedupLemmas

variable {κ : Type} [DecidableEq κ]

theorem dedupKeepFirst_mem : ∀ (l : List κ) (x : κ), x ∈ dedupKeepFirst l ↔ x ∈ l := by
  intro l
  induction l using dedupKeepFirst.induct with
  | case1 => intro x; rw [dedupKeepFirst]
  | case2 k rest ih =>
    intro x
    rw [dedupKeepFirst]
    by_cases hx : x = k
    · simp [hx]
    · simp only [List.mem_cons, ih x, List.mem_filter]
      constructor
      · rintro (h | ⟨h, _⟩)
        · exact Or.inl h
        · exact Or.inr h
      · rintro (h | h)
        · exact Or.inl h
        · exact Or.inr ⟨h, by simpa using hx⟩

theorem dedupKeepFirst_nodup : ∀ (l : List κ), (dedupKeepFirst l).Nodup := by
  intro l
  induction l using dedupKeepFirst.induct with
  | case1 => rw [dedupKeepFirst]; exact List.nodup_nil
  | case2 k rest ih =>
    rw [dedupKeepFirst]
    refine List.nodup_cons.mpr ⟨?_, ih⟩
    intro hmem
    have := (dedupKeepFirst_mem _ k).mp hmem
    simp at this

theorem dedupKeepFirst_all_eq {k : κ} {rest : List κ} (h : ∀ x ∈ rest, x = k) :
    dedupKeepFirst (k :: rest) = [k] := by
  rw [dedupKeepFirst]
  have hfil : rest.filter (fun x => decide (x ≠ k)) = [] := by
    rw [List.filter_eq_nil_iff]
    intro a ha
    simpa using h a ha
  rw [hfil, dedupKeepFirst]

theorem dedupKeepFirst_two_le {k : κ} {rest : List κ} (h : ∃ x ∈ rest, x ≠ k) :
    2 ≤ (dedupKeepFirst (k :: rest)).length := by
  rw [dedupKeepFirst]
  rcases h with ⟨x, hx, hxk⟩
  have hfil : x ∈ rest.filter (fun y => decide (y ≠ k)) :=
    List.mem_filter.mpr ⟨hx, by simpa using hxk⟩
  have hmem : x ∈ dedupKeepFirst (rest.filter (fun y => decide (y ≠ k))) :=
    (dedupKeepFirst_mem _ x).mpr hfil
  have : 1 ≤ (dedupKeepFirst (rest.filter (fun y => decide (y ≠ k)))).length :=
    List.length_pos.mpr (List.ne_nil_of_mem hmem)
  simp only [List.length_cons]
  omega

end DedupLemmas

section StreamLemmas

variable {κ T : Type} [DecidableEq κ]

theorem compositeGetKeys_map_mem {keyOf : T → κ} (ss : List (List T)) (k : κ) :
    k ∈ compositeGetKeys (mapOps keyOf) ss ↔ ∃ s ∈ ss, k ∈ s.map keyOf := by
  unfold compositeGetKeys
  rw [dedupKeepFirst_mem, List.mem_flatten]
  constructor
  · rintro ⟨l, hl, hk⟩
    rcases List.mem_map.mp hl with ⟨s, hs, hsl⟩
    exact ⟨s, hs, by rw [← hsl] at hk; exact hk⟩
  · rintro ⟨s, hs, hk⟩
    exact ⟨s.map keyOf, List.mem_map.mpr ⟨s, hs, rfl⟩, hk⟩

theorem compositeGetKeys_map_nodup {keyOf : T → κ} (ss : List (List T)) :
    (compositeGetKeys (mapOps keyOf) ss).Nodup :=
  dedupKeepFirst_nodup _

theorem lookupTop_isSome_of_mem {keyOf : T → κ} {ss : List (List T)} {s : List T} {k : κ}
    (hs : s ∈ ss) (hk : k ∈ s.map keyOf) : lookupTop keyOf ss k ≠ none := by
  intro hnone
  have hall := lookupTop_eq_none_iff.mp hnone s hs
  rcases List.mem_map.mp hk with ⟨e, he, hke⟩
  have : mexists keyOf s k = true := mexists_true_iff.mpr ⟨e, he, hke⟩
  rw [mexists_false_iff.symm] at hall
  rw [hall] at this
  cases this

theorem streamGo_map_spec {keyOf : T → κ} :
    ∀ (ks : List κ) (ss : List (List T)),
      ∃ ss', streamGo (mapOps keyOf) ks ss =
          (ss', .ok (ks.filterMap (lookupTop keyOf ss))) ∧
        ∀ k', lookupTop keyOf ss' k' = lookupTop keyOf ss k' := by
  intro ks
  induction ks with
  | nil => exact fun ss => ⟨ss, rfl, fun _ => rfl⟩
  | cons k ks ih =>
    intro ss
    rcases compositeGet_map_spec ss k with ⟨ss1, hg, _, hinv⟩
    rcases ih ss1 with ⟨ss2, hs, hinv2⟩
    have hcong : ks.filterMap (lookupTop keyOf ss1) = ks.filterMap (lookupTop keyOf ss) :=
      List.filterMap_congr (fun a _ => hinv a)
    cases hl : lookupTop keyOf ss k with
    | none =>
      refine ⟨ss2, ?_, fun k' => (hinv2 k').trans (hinv k')⟩
      simp only [streamGo, hg, hl, hs, hcong, List.filterMap_cons_none hl]
    | some e =>
      refine ⟨ss2, ?_, fun k' => (hinv2 k').trans (hinv k')⟩
      simp only [streamGo, hg, hl, hs, hcong, List.filterMap_cons_some hl]

theorem streamTake_map_spec {keyOf : T → κ} :
    ∀ (ks : List κ) (n : Nat) (ss : List (List T)),
      ∃ ss', streamTake (mapOps keyOf) n ks ss =
        (ss', .ok ((ks.filterMap (lookupTop keyOf ss)).take n)) := by
  intro ks
  induction ks with
  | nil =>
    intro n ss
    cases n with
    | zero => exact ⟨ss, rfl⟩
    | succ n => exact ⟨ss, rfl⟩
  | cons k ks ih =>
    intro n ss
    cases n with
    | zero => exact ⟨ss, rfl⟩
    | succ n =>
      rcases compositeGet_map_spec ss k with ⟨ss1, hg, _, hinv⟩
      have hcong : ks.filterMap (lookupTop keyOf ss1) = ks.filterMap (lookupTop keyOf ss) :=
        List.filterMap_congr (fun a _ => hinv a)
      cases hl : lookupTop keyOf ss k with
      | none =>
        rcases ih (n + 1) ss1 with ⟨ss2, hs⟩
        refine ⟨ss2, ?_⟩
        simp only [streamTake, hg, hl, hs, hcong, List.filterMap_cons_none hl]
      | some e =>
        rcases ih n ss1 with ⟨ss2, hs⟩
        refine ⟨ss2, ?_⟩
        simp only [streamTake, hg, hl, hs, hcong, List.filterMap_cons_some hl,
          List.take_succ_cons]

end StreamLemmas

section WriteLemmas

variable {κ T : Type} [DecidableEq κ]

theorem compositeExists_map_iff {keyOf : T → κ} {ss : List (List T)} {k : κ} :
    compositeExists (mapOps keyOf) ss k = true ↔ ∃ s ∈ ss, mexists keyOf s k = true := by
  unfold compositeExists
  rw [List.any_eq_true]
  simp

theorem compositeExists_map_false {keyOf : T → κ} {ss : List (List T)} {k : κ}
    (h : compositeExists (mapOps keyOf) ss k = false) :
    ∀ s ∈ ss, mexists keyOf s k = false := by
  intro s hs
  cases hex : mexists keyOf s k with
  | false => rfl
  | true =>
    have := compositeExists_map_iff.mpr ⟨s, hs, hex⟩
    rw [h] at this
    cases this

theorem compositeCreate_map_dup {keyOf : T → κ} {ss : List (List T)} {e : T}
    (h : compositeExists (mapOps keyOf) ss (keyOf e) = true) :
    compositeCreate (mapOps keyOf) keyOf ss e = (ss, .error (.duplicateKey (keyOf e))) := by
  unfold compositeCreate
  rw [if_pos h]

theorem compositeCreate_map_ok {keyOf : T → κ} {ss : List (List T)} {e : T}
    (h : compositeExists (mapOps keyOf) ss (keyOf e) = false) :
    compositeCreate (mapOps keyOf) keyOf ss e = (ss.map (fun s => s ++ [e]), .ok ()) := by
  unfold compositeCreate
  rw [if_neg (by simp [h])]
  have hfan : fanout (fun s => (mapOps keyOf).create s e) ss =
      (ss.map (fun s => s ++ [e]), none) := by
    apply fanout_of_ok
    intro s hs
    have hex := compositeExists_map_false h s hs
    simp only [mapOps_create]
    unfold mcreate
    rw [hex]
    rfl
  simp only [hfan]

theorem compositeUpdate_map_notfound {keyOf : T → κ} {ss : List (List T)} {e : T}
    (h : compositeExists (mapOps keyOf) ss (keyOf e) = false) :
    compositeUpdate (mapOps keyOf) keyOf ss e = (ss, .error (.keyNotFound (keyOf e))) := by
  unfold compositeUpdate
  rw [if_pos (by simp [h])]

theorem compositeUpdate_map_ok {keyOf : T → κ} {ss : List (List T)} {e : T}
    (h : compositeExists (mapOps keyOf) ss (keyOf e) = true) :
    compositeUpdate (mapOps keyOf) keyOf ss e =
      (ss.map (fun s => if mexists keyOf s (keyOf e)
          then s.map (fun x => if keyOf x = keyOf e then e else x)
          else s ++ [e]), .ok ()) := by
  unfold compositeUpdate
  rw [if_neg (by simp [h])]
  have hfan : fanout (fun s => if (mapOps keyOf).existsb s (keyOf e)
        then (mapOps keyOf).update s e else (mapOps keyOf).create s e) ss =
      (ss.map (fun s => if mexists keyOf s (keyOf e)
          then s.map (fun x => if keyOf x = keyOf e then e else x)
          else s ++ [e]), none) := by
    apply fanout_of_ok
    intro s _
    by_cases hex : mexists keyOf s (keyOf e)
    · simp only [mapOps_existsb, mapOps_update, hex, if_true]
      unfold mupdate
      rw [if_pos hex]
    · simp only [mapOps_existsb, mapOps_update, mapOps_create, hex]
      simp only [Bool.false_eq_true, if_false]
      unfold mcreate
      rw [if_neg (by simp [hex])]
  simp only [hfan]

theorem mget_upsert_self {keyOf : T → κ} (s : List T) (e : T) :
    mget keyOf (if mexists keyOf s (keyOf e)
        then s.map (fun x => if keyOf x = keyOf e then e else x)
        else s ++ [e]) (keyOf e) = some e := by
  by_cases hex : mexists keyOf s (keyOf e)
  · rw [if_pos hex]
    exact mget_map_replace e hex
  · rw [if_neg hex, mget_append_single_of_none (mexists_false_iff.mp (by simpa using hex)),
      if_pos rfl]

theorem compositeDelete_map_notfound {keyOf : T → κ} {ss : List (List T)} {k : κ}
    (h : compositeExists (mapOps keyOf) ss k = false) :
    compositeDelete (mapOps keyOf) ss k = (ss, .error (.keyNotFound k)) := by
  unfold compositeDelete
  rw [if_pos (by simp [h])]

theorem compositeDelete_map_ok {keyOf : T → κ} {ss : List (List T)} {k : κ}
    (h : compositeExists (mapOps keyOf) ss k = true) :
    compositeDelete (mapOps keyOf) ss k =
      (ss.map (fun s => if mexists keyOf s k
          then s.filter (fun x => decide (keyOf x ≠ k)) else s), .ok ()) := by
  unfold compositeDelete
  rw [if_neg (by simp [h])]
  have hfan : fanout (fun s => if (mapOps keyOf).existsb s k
        then (mapOps keyOf).delete s k else .ok s) ss =
      (ss.map (fun s => if mexists keyOf s k
          then s.filter (fun x => decide (keyOf x ≠ k)) else s), none) := by
    apply fanout_of_ok
    intro s _
    by_cases hex : mexists keyOf s k
    · simp only [mapOps_existsb, mapOps_delete, hex, if_true]
      unfold mdelete
      rw [if_pos hex]
    · simp only [mapOps_existsb, mapOps_delete, hex]
      simp [hex]
  simp only [hfan]

end WriteLemmas

section ReplayLemmas

variable {κ T σ : Type}

theorem replayCreate_of_error {L : LayerOps κ T σ} {s : σ} {e : T} {err : Err κ}
    (h : L.create s e = .error err) : replayCreate L s e = .ok s := by
  unfold replayCreate
  rw [h]

theorem replayUpdate_of_error {L : LayerOps κ T σ} {s : σ} {e : T} {err err2 : Err κ}
    (hu : L.update s e = .error err) (hc : L.create s e = .error err2) :
    replayUpdate L s e = .ok s := by
  unfold replayUpdate
  rw [hu, hc]

theorem replayDelete_of_error {L : LayerOps κ T σ} {keyOf : T → κ} {s : σ} {e : T}
    {err : Err κ} (h : L.delete s (keyOf e) = .error err) :
    replayDelete L keyOf s e = .ok s := by
  unfold replayDelete
  rw [h]

end ReplayLemmas

section ValidateLemmas

theorem validateLayers_nil :
    validateLayers [] = .error "At least one storage layer is required" := rfl

theorem validateLayers_all_eq {f : String} {fs : List String} (h : ∀ g ∈ fs, g = f) :
    validateLayers (f :: fs) = .ok f := by
  simp only [validateLayers, dedupKeepFirst_all_eq h]
  rfl

theorem validateLayers_mismatch {f : String} {fs : List String} (h : ∃ g ∈ fs, g ≠ f) :
    validateLayers (f :: fs) =
      .error ("All layers must have the same key field. Found: " ++
        String.intercalate ", " (dedupKeepFirst (f :: fs))) := by
  have h2 := dedupKeepFirst_two_le h
  simp only [validateLayers]
  rw [if_pos (by omega)]

end ValidateLemmas

section Claims

/-- C1: the composite `get` examines layers from top (index 0) to bottom.
If no layer holds the key it returns `null` with every layer unchanged.
If the topmost layer holding the key is at index `i`, the result is that
layer's entry and, before returning, a bubble-up create of the entry is
attempted on every layer strictly above `i` (`bubbleCreate` swallows
exactly a duplicate-key failure and rethrows anything else to the caller
of `get`); for contract-abiding map layers this appends the found entry
to each skipped layer and raises no error. -/
theorem c1_get_topmost_and_bubble_up {κ T σ : Type} [DecidableEq κ]
    (L : LayerOps κ T σ) (k : κ) (ss : List σ) :
    ((∀ s ∈ ss, L.get s k = none) → compositeGet L ss k = (ss, .ok none)) ∧
    (∀ (i : Nat) (hi : i < ss.length) (e : T),
      (∀ j (hj : j < ss.length), j < i → L.get (ss.get ⟨j, hj⟩) k = none) →
      L.get (ss.get ⟨i, hi⟩) k = some e →
      compositeGet L ss k =
        ((fanout (fun t => bubbleCreate L t e) (ss.take i)).1 ++ ss.drop i,
         match (fanout (fun t => bubbleCreate L t e) (ss.take i)).2 with
         | some err => .error err
         | none => .ok (some e))) ∧
    (∀ (keyOf : T → κ) (sm : List (List T)) (i : Nat) (hi : i < sm.length) (e : T),
      (∀ j (hj : j < sm.length), j < i → mget keyOf (sm.get ⟨j, hj⟩) k = none) →
      mget keyOf (sm.get ⟨i, hi⟩) k = some e →
      compositeGet (mapOps keyOf) sm k =
        ((sm.take i).map (fun s => s ++ [e]) ++ sm.drop i, .ok (some e))) := by
  refine ⟨compositeGet_all_none, fun i hi e hs hf => compositeGet_found hi hs hf, ?_⟩
  intro keyOf sm i hi e hskip hfound
  have hk : keyOf e = k := keyOf_of_mget_some hfound
  have habs : ∀ t ∈ sm.take i, mget keyOf t k = none := by
    intro t ht
    rw [List.mem_take_iff_getElem] at ht
    rcases ht with ⟨j, hj, he⟩
    have hj2 : j < sm.length := by omega
    have hnone := hskip j hj2 (by omega)
    rw [← he]
    simpa [List.get_eq_getElem] using hnone
  have hfan := fanout_bubble_map_of_absent hk habs
  rw [compositeGet_found hi hskip hfound, hfan]

/-- Witness for C1: on the concrete stack, `get 2` misses the top layer,
returns the bottom layer's entry (2, 30), and bubbles it into the top
layer. -/
theorem c1_witness :
    compositeGet (mapOps kF) ss0 2 =
      ((ss0.take 1).map (fun s => s ++ [(2, 30)]) ++ ss0.drop 1, .ok (some (2, 30))) := by
  refine (c1_get_topmost_and_bubble_up (mapOps kF) 2 ss0).2.2 kF ss0 1 (by decide)
    (2, 30) ?_ (by decide)
  intro j hj hj1
  have hj0 : j = 0 := Nat.lt_one_iff.mp hj1
  subst hj0
  show mget kF [(1, 10)] 2 = none
  decide

/-- C2: `getAll` returns exactly one entry per distinct key present in
any layer, and the entry returned for a key is the value held by the
topmost layer containing it (the merge inserts layer results bottom to
top, so a later, higher insertion overwrites a lower one). -/
theorem c2_getAll_merge_topmost_wins {κ T : Type} [DecidableEq κ]
    (keyOf : T → κ) (ss : List (List T)) (hWF : ∀ s ∈ ss, (s.map keyOf).Nodup) :
    ∃ out, (compositeGetAll (mapOps keyOf) keyOf ss).2 = .ok out ∧
      (out.map keyOf).Nodup ∧
      (∀ k, k ∈ out.map keyOf ↔ ∃ s ∈ ss, k ∈ s.map keyOf) ∧
      ∀ e ∈ out, lookupTop keyOf ss (keyOf e) = some e := by
  have hkeys : ((mergeLayers keyOf ss).map Prod.snd).map keyOf =
      (mergeLayers keyOf ss).map Prod.fst := by
    rw [List.map_map]
    exact List.map_congr_left (fun p hp => pairs_mergeLayers ss p hp)
  refine ⟨(mergeLayers keyOf ss).map Prod.snd, (compositeGetAll_map_spec ss).1, ?_, ?_, ?_⟩
  · rw [hkeys]
    exact keys_mergeLayers_nodup ss
  · intro k
    rw [hkeys]
    exact keys_mergeLayers_mem ss k
  · intro e he
    rcases List.mem_map.mp he with ⟨p, hp, hpe⟩
    rw [← hpe, pairs_mergeLayers ss p hp, ← lookupA_mergeLayers hWF]
    exact lookupA_self_of_nodup _ (keys_mergeLayers_nodup ss) p hp

/-- Witness for C2: the merge of the concrete stack, where key 1 is held
by both layers with different values and the top layer's value wins. -/
theorem c2_witness :
    ∃ out, (compositeGetAll (mapOps kF) kF ss0).2 = .ok out ∧
      (out.map kF).Nodup ∧
      (∀ k, k ∈ out.map kF ↔ ∃ s ∈ ss0, k ∈ s.map kF) ∧
      ∀ e ∈ out, lookupTop kF ss0 (kF e) = some e :=
  c2_getAll_merge_topmost_wins kF ss0 (by decide)

/-- C4: `getAll` repairs absence only, never staleness: any key a layer
already held keeps its stored value in that layer across `getAll` (no
update is ever issued); only layers whose own read missed a key receive a
create of the merged entry. -/
theorem c4_getAll_frame {κ T : Type} [DecidableEq κ] (keyOf : T → κ)
    (ss : List (List T)) (j : Nat) (hj : j < ss.length) (k : κ) (v : T)
    (hheld : mget keyOf (ss.get ⟨j, hj⟩) k = some v) :
    (compositeGetAll (mapOps keyOf) keyOf ss).1.length = ss.length ∧
    ∀ hj2 : j < (compositeGetAll (mapOps keyOf) keyOf ss).1.length,
      mget keyOf ((compositeGetAll (mapOps keyOf) keyOf ss).1.get ⟨j, hj2⟩) k = some v :=
  ⟨(compositeGetAll_map_spec ss).2.1,
   fun hj2 => (compositeGetAll_map_spec ss).2.2 j hj hj2 k v hheld⟩

/-- Witness for C4: the bottom layer's stale value (1, 20) for key 1
survives `getAll` unchanged even though the top layer's (1, 10) wins the
merge. -/
theorem c4_witness :
    (compositeGetAll (mapOps kF) kF ss0).1.length = ss0.length ∧
    ∀ hj2 : 1 < (compositeGetAll (mapOps kF) kF ss0).1.length,
      mget kF ((compositeGetAll (mapOps kF) kF ss0).1.get ⟨1, hj2⟩) 1 = some (1, 20) :=
  c4_getAll_frame kF ss0 1 (by decide) 1 (1, 20) (by decide)

/-- C5: for a fixed consistent layer stack, fully consuming `streamAll`
yields exactly the same multiset of entries as the array returned by
`getAll`, independent of order; consuming only a prefix raises no error,
and what is consumed is an exact prefix of the full stream. -/
theorem c5_streamAll_getAll_perm {κ T : Type} [DecidableEq κ]
    (keyOf : T → κ) (ss : List (List T)) (hWF : ∀ s ∈ ss, (s.map keyOf).Nodup) :
    ∃ xs ys, (compositeGetAll (mapOps keyOf) keyOf ss).2 = .ok xs ∧
      (compositeStreamAll (mapOps keyOf) ss).2 = .ok ys ∧
      List.Perm xs ys ∧
      ∀ n, ∃ zs, (streamTake (mapOps keyOf) n (compositeGetKeys (mapOps keyOf) ss) ss).2 =
          .ok zs ∧ zs = ys.take n := by
  obtain ⟨ssS, hgo, _⟩ := streamGo_map_spec (compositeGetKeys (mapOps keyOf) ss) ss
  refine ⟨(mergeLayers keyOf ss).map Prod.snd,
    (compositeGetKeys (mapOps keyOf) ss).filterMap (lookupTop keyOf ss),
    (compositeGetAll_map_spec ss).1, ?_, ?_, ?_⟩
  · unfold compositeStreamAll
    rw [hgo]
  · have hpair : ∀ p ∈ mergeLayers keyOf ss, lookupTop keyOf ss p.1 = some p.2 := by
      intro p hp
      rw [← lookupA_mergeLayers hWF]
      exact lookupA_self_of_nodup _ (keys_mergeLayers_nodup ss) p hp
    have hxs : ((mergeLayers keyOf ss).map Prod.fst).filterMap (lookupTop keyOf ss) =
        (mergeLayers keyOf ss).map Prod.snd := filterMap_keys_eq hpair
    have hperm : List.Perm ((mergeLayers keyOf ss).map Prod.fst)
        (compositeGetKeys (mapOps keyOf) ss) := by
      rw [List.perm_ext_iff_of_nodup (keys_mergeLayers_nodup ss)
        (compositeGetKeys_map_nodup ss)]
      intro a
      rw [keys_mergeLayers_mem, compositeGetKeys_map_mem]
    rw [← hxs]
    exact hperm.filterMap (lookupTop keyOf ss)
  · intro n
    obtain ⟨ssT, ht⟩ := streamTake_map_spec (compositeGetKeys (mapOps keyOf) ss) n ss
    exact ⟨_, by rw [ht], rfl⟩

/-- Witness for C5 on the concrete stack. -/
theorem c5_witness :
    ∃ xs ys, (compositeGetAll (mapOps kF) kF ss0).2 = .ok xs ∧
      (compositeStreamAll (mapOps kF) ss0).2 = .ok ys ∧
      List.Perm xs ys ∧
      ∀ n, ∃ zs, (streamTake (mapOps kF) n (compositeGetKeys (mapOps kF) ss0) ss0).2 =
          .ok zs ∧ zs = ys.take n :=
  c5_streamAll_getAll_perm kF ss0 (by decide)

/-- C6: `create` first runs the composite existence check; if the key is
held by any layer the call fails with a duplicate-key error naming the
key and no layer changes; otherwise create is invoked on every layer and
afterwards every layer holds the entry. -/
theorem c6_create_all_or_nothing {κ T : Type} [DecidableEq κ]
    (keyOf : T → κ) (ss : List (List T)) (e : T) :
    (compositeExists (mapOps keyOf) ss (keyOf e) = true ↔
      ∃ s ∈ ss, mexists keyOf s (keyOf e) = true) ∧
    (compositeExists (mapOps keyOf) ss (keyOf e) = true →
      compositeCreate (mapOps keyOf) keyOf ss e =
        (ss, .error (.duplicateKey (keyOf e)))) ∧
    (compositeExists (mapOps keyOf) ss (keyOf e) = false →
      compositeCreate (mapOps keyOf) keyOf ss e =
        (ss.map (fun s => s ++ [e]), .ok ()) ∧
      ∀ s ∈ ss, mget keyOf (s ++ [e]) (keyOf e) = some e) := by
  refine ⟨compositeExists_map_iff, compositeCreate_map_dup,
    fun h => ⟨compositeCreate_map_ok h, ?_⟩⟩
  intro s hs
  rw [mget_append_single_of_none
    (mexists_false_iff.mp (compositeExists_map_false h s hs)), if_pos rfl]

/-- Witness for C6: creating key 2 (held by the bottom layer only) fails
with DuplicateKey leaving the stack unchanged; creating the fresh key 3
appends the entry to every layer. -/
theorem c6_witness :
    compositeCreate (mapOps kF) kF ss0 (2, 99) = (ss0, .error (.duplicateKey 2)) ∧
    (compositeCreate (mapOps kF) kF ss0 (3, 99) =
        (ss0.map (fun s => s ++ [(3, 99)]), .ok ()) ∧
      ∀ s ∈ ss0, mget kF (s ++ [(3, 99)]) 3 = some (3, 99)) :=
  ⟨(c6_create_all_or_nothing kF ss0 (2, 99)).2.1 (by decide),
   (c6_create_all_or_nothing kF ss0 (3, 99)).2.2 (by decide)⟩

/-- C7: `update` fails with a not-found error naming the key, changing no
layer, when the key is held by no layer; otherwise it updates each layer
that holds the key and creates into each layer that does not, after which
every layer holds the entry (upsert backfill). -/
theorem c7_update_upsert_backfill {κ T : Type} [DecidableEq κ]
    (keyOf : T → κ) (ss : List (List T)) (e : T) :
    (compositeExists (mapOps keyOf) ss (keyOf e) = false →
      compositeUpdate (mapOps keyOf) keyOf ss e =
        (ss, .error (.keyNotFound (keyOf e)))) ∧
    (compositeExists (mapOps keyOf) ss (keyOf e) = true →
      compositeUpdate (mapOps keyOf) keyOf ss e =
        (ss.map (fun s => if mexists keyOf s (keyOf e)
            then s.map (fun x => if keyOf x = keyOf e then e else x)
            else s ++ [e]), .ok ()) ∧
      ∀ s ∈ ss, mget keyOf (if mexists keyOf s (keyOf e)
          then s.map (fun x => if keyOf x = keyOf e then e else x)
          else s ++ [e]) (keyOf e) = some e) :=
  ⟨compositeUpdate_map_notfound,
   fun h => ⟨compositeUpdate_map_ok h, fun s _ => mget_upsert_self s e⟩⟩

/-- Witness for C7: updating the absent key 9 fails with KeyNotFound and
changes nothing; updating key 2 (held only by the bottom layer) replaces
it there and creates it in the top layer. -/
theorem c7_witness :
    compositeUpdate (mapOps kF) kF ss0 (9, 99) = (ss0, .error (.keyNotFound 9)) ∧
    (compositeUpdate (mapOps kF) kF ss0 (2, 99) =
        (ss0.map (fun s => if mexists kF s 2
            then s.map (fun x => if kF x = 2 then (2, 99) else x)
            else s ++ [(2, 99)]), .ok ()) ∧
      ∀ s ∈ ss0, mget kF (if mexists kF s 2
          then s.map (fun x => if kF x = 2 then (2, 99) else x)
          else s ++ [(2, 99)]) 2 = some (2, 99)) :=
  ⟨(c7_update_upsert_backfill kF ss0 (9, 99)).1 (by decide),
   (c7_update_upsert_backfill kF ss0 (2, 99)).2 (by decide)⟩

/-- C8: `delete` fails with a not-found error naming the key, changing no
layer, when the key is held by no layer; otherwise it deletes exactly
from the layers that hold the key, leaves layers without it untouched and
raises no error for them, and every other key keeps its value in every
layer. -/
theorem c8_delete_exact_subset {κ T : Type} [DecidableEq κ]
    (keyOf : T → κ) (ss : List (List T)) (k : κ) :
    (compositeExists (mapOps keyOf) ss k = false →
      compositeDelete (mapOps keyOf) ss k = (ss, .error (.keyNotFound k))) ∧
    (compositeExists (mapOps keyOf) ss k = true →
      compositeDelete (mapOps keyOf) ss k =
        (ss.map (fun s => if mexists keyOf s k
            then s.filter (fun x => decide (keyOf x ≠ k)) else s), .ok ()) ∧
      (∀ s ∈ ss, mexists keyOf s k = false →
        (if mexists keyOf s k
          then s.filter (fun x => decide (keyOf x ≠ k)) else s) = s) ∧
      ∀ s ∈ ss, ∀ k', k' ≠ k →
        mget keyOf (if mexists keyOf s k
            then s.filter (fun x => decide (keyOf x ≠ k)) else s) k' =
          mget keyOf s k') := by
  refine ⟨compositeDelete_map_notfound, fun h => ⟨compositeDelete_map_ok h, ?_, ?_⟩⟩
  · intro s _ hex
    rw [if_neg (by simp [hex])]
  · intro s _ k' hk
    by_cases hex : mexists keyOf s k
    · rw [if_pos hex]
      exact mget_filter_ne s hk
    · rw [if_neg hex]

/-- Witness for C8: deleting the absent key 9 fails with KeyNotFound and
changes nothing; deleting key 2 (held only by the bottom layer) removes it
from exactly that layer and preserves every other key. -/
theorem c8_witness :
    compositeDelete (mapOps kF) ss0 9 = (ss0, .error (.keyNotFound 9)) ∧
    (compositeDelete (mapOps kF) ss0 2 =
        (ss0.map (fun s => if mexists kF s 2
            then s.filter (fun x => decide (kF x ≠ 2)) else s), .ok ()) ∧
      (∀ s ∈ ss0, mexists kF s 2 = false →
        (if mexists kF s 2
          then s.filter (fun x => decide (kF x ≠ 2)) else s) = s) ∧
      ∀ s ∈ ss0, ∀ k', k' ≠ 2 →
        mget kF (if mexists kF s 2
            then s.filter (fun x => decide (kF x ≠ 2)) else s) k' = mget kF s k') :=
  ⟨(c8_delete_exact_subset kF ss0 9).1 (by decide),
   (c8_delete_exact_subset kF ss0 2).2 (by decide)⟩

/-- C9: constructing the composite fails synchronously exactly when the
layer list is empty or the key fields are not all equal; the mismatch
error message names the distinct conflicting field identifiers; for a
non-empty list with one shared key field, construction succeeds and the
composite's key field is the shared field. -/
theorem c9_construction_validation :
    validateLayers [] = .error "At least one storage layer is required" ∧
    (∀ (f : String) (fs : List String), (∀ g ∈ fs, g = f) →
      validateLayers (f :: fs) = .ok f) ∧
    (∀ (f : String) (fs : List String), (∃ g ∈ fs, g ≠ f) →
      validateLayers (f :: fs) =
        .error ("All layers must have the same key field. Found: " ++
          String.intercalate ", " (dedupKeepFirst (f :: fs))) ∧
      ∀ g ∈ f :: fs, g ∈ dedupKeepFirst (f :: fs)) :=
  ⟨validateLayers_nil,
   fun _ _ h => validateLayers_all_eq h,
   fun _ _ h => ⟨validateLayers_mismatch h,
    fun g hg => (dedupKeepFirst_mem _ g).mpr hg⟩⟩

/-- Witness for C9: two layers sharing the field id construct with that
key field; layers with fields id and uid fail with a message naming both. -/
theorem c9_witness :
    validateLayers ["id", "id"] = .ok "id" ∧
    (validateLayers ["id", "uid"] =
        .error ("All layers must have the same key field. Found: " ++
          String.intercalate ", " (dedupKeepFirst ["id", "uid"])) ∧
      ∀ g ∈ ["id", "uid"], g ∈ dedupKeepFirst ["id", "uid"]) :=
  ⟨c9_construction_validation.2.1 "id" ["id"] (by decide),
   c9_construction_validation.2.2 "id" ["uid"] (by decide)⟩

/-- C10: in the update and delete fan-outs every per-layer mutating call
is guarded by that layer's own existence check, so under sequential
execution the guarded calls cannot hit their own error branches: a layer
update runs only where the layer holds the key (its KeyNotFound cannot
fire), a layer create only where it does not (its DuplicateKey cannot
fire), a layer delete only where it holds the key; hence with the
composite precondition satisfied the whole fan-out resolves without
error. -/
theorem c10_guarded_fanout_total {κ T : Type} [DecidableEq κ]
    (keyOf : T → κ) (ss : List (List T)) (e : T) (k : κ) :
    (∀ s : List T, mexists keyOf s (keyOf e) = true →
      mupdate keyOf s e = .ok (s.map (fun x => if keyOf x = keyOf e then e else x))) ∧
    (∀ s : List T, mexists keyOf s (keyOf e) = false →
      mcreate keyOf s e = .ok (s ++ [e])) ∧
    (∀ s : List T, mexists keyOf s k = true →
      mdelete keyOf s k = .ok (s.filter (fun x => decide (keyOf x ≠ k)))) ∧
    (compositeExists (mapOps keyOf) ss (keyOf e) = true →
      (compositeUpdate (mapOps keyOf) keyOf ss e).2 = .ok ()) ∧
    (compositeExists (mapOps keyOf) ss k = true →
      (compositeDelete (mapOps keyOf) ss k).2 = .ok ()) := by
  refine ⟨?_, ?_, ?_, ?_, ?_⟩
  · intro s hex
    unfold mupdate
    rw [if_pos hex]
  · intro s hex
    unfold mcreate
    rw [if_neg (by simp [hex])]
  · intro s hex
    unfold mdelete
    rw [if_pos hex]
  · intro h
    rw [compositeUpdate_map_ok h]
  · intro h
    rw [compositeDelete_map_ok h]

/-- Witness for C10 on concrete layers: the guarded branches succeed and
the composite fan-outs resolve without error. -/
theorem c10_witness :
    mupdate kF [(1, 10)] (1, 99) = .ok [(1, 99)] ∧
    mcreate kF [(2, 30)] (1, 99) = .ok [(2, 30), (1, 99)] ∧
    mdelete kF [(1, 20), (2, 30)] 2 = .ok [(1, 20)] ∧
    (compositeUpdate (mapOps kF) kF ss0 (1, 99)).2 = .ok () ∧
    (compositeDelete (mapOps kF) ss0 2).2 = .ok () := by
  have h := c10_guarded_fanout_total kF ss0 (1, 99) 2
  exact ⟨h.1 [(1, 10)] (by decide), h.2.1 [(2, 30)] (by decide),
    h.2.2.1 [(1, 20), (2, 30)] (by decide),
    h.2.2.2.1 (by decide), h.2.2.2.2 (by decide)⟩

/-- C3 counterexample: the construction-time event wiring replays a lower
layer's operations on the layer above inside a broad catch-all, so a
backend error — which is not a DuplicateKey — is swallowed there rather
than propagated, contradicting the claim that in every bubble-up
replication an error is swallowed only when it is a DuplicateKey (or, for
the delete replay, a KeyNotFound). -/
theorem c3_counterexample_event_wiring :
    failOps.create 0 0 = .error (.backend "io failure") ∧
    (Err.backend "io failure" : Err Nat).isDup = false ∧
    replayCreate failOps 0 0 = .ok 0 ∧
    replayUpdate failOps 0 0 = .ok 0 ∧
    replayDelete failOps (fun n => n) 0 0 = .ok 0 :=
  ⟨rfl, rfl, rfl, rfl, rfl⟩

/-- C3 amended: in the bubble-up create calls of `get` and `getAll`
(`bubbleCreate` and the fold step `bubbleStep` built on it) an error is
swallowed if and only if it is a DuplicateKey and any other error
propagates; the construction-time event wiring replays, by contrast,
swallow every error of the replayed operation — not only DuplicateKey
for the create and update replays and not only KeyNotFound for the
delete replay. -/
theorem c3_amended_swallow_policy {κ T σ : Type} [DecidableEq κ]
    (L : LayerOps κ T σ) (keyOf : T → κ) (s : σ) (e : T) :
    (∀ err, L.create s e = .error err →
      bubbleCreate L s e = if err.isDup then .ok s else .error err) ∧
    (∀ s', L.create s e = .ok s' → bubbleCreate L s e = .ok s') ∧
    (∀ err, L.create s e = .error err →
      bubbleStep L (s, none) e = (s, if err.isDup then none else some err)) ∧
    (∀ err, L.create s e = .error err → replayCreate L s e = .ok s) ∧
    (∀ err err2, L.update s e = .error err → L.create s e = .error err2 →
      replayUpdate L s e = .ok s) ∧
    (∀ err, L.delete s (keyOf e) = .error err → replayDelete L keyOf s e = .ok s) := by
  refine ⟨fun err h => bubbleCreate_of_error h, fun s' h => bubbleCreate_of_ok h, ?_,
    fun err h => replayCreate_of_error h,
    fun err err2 hu hc => replayUpdate_of_error hu hc,
    fun err h => replayDelete_of_error h⟩
  intro err h
  unfold bubbleStep
  rw [bubbleCreate_of_error h]
  cases herr : err.isDup <;> simp [herr]

/-- Witness for the amended C3 at the failing layer: the get/getAll
bubble-up step propagates the backend error while every event replay
swallows it. -/
theorem c3_amended_witness :
    bubbleCreate failOps 0 0 = .error (.backend "io failure") ∧
    bubbleStep failOps (0, none) 0 = (0, some (.backend "io failure")) ∧
    replayCreate failOps 0 0 = .ok 0 ∧
    replayUpdate failOps 0 0 = .ok 0 ∧
    replayDelete failOps (fun n => n) 0 0 = .ok 0 := by
  have h := c3_amended_swallow_policy failOps (fun n => n) 0 0
  refine ⟨?_, ?_, h.2.2.2.1 _ rfl, h.2.2.2.2.1 _ _ rfl rfl, h.2.2.2.2.2 _ rfl⟩
  · have hb := h.1 (.backend "io failure") rfl
    simpa [Err.isDup] using hb
  · have hb := h.2.2.1 (.backend "io failure") rfl
    simpa [Err.isDup] using hb

end Claims

end LayeredStorage
